import Mathlib

/-!
Verification of the `strokes` practice-sheet generator (src/strokes.py).

The embedding models the core pipeline:
  * `load_strokes_db` / `load_dictionary` — the stroke and pronunciation
    stores, taking the already-parsed records of the input file as a list;
  * `get_image` — the cell cache keyed by the generated filename;
  * the `gen_images` generator, modelled as an explicit pass structure
    (`char_block`, `drills`, `review_steps`, `pass_block`) together with a
    pull function `pull_from` giving the k-th item the lazy generator
    would yield (or the Python exception it would raise there);
  * `gen_svg` — the page layout engine.

Python's `random.choice` is modelled by an injected oracle
`picks : Nat → Nat`; the j-th review draw overall picks the character at
index `picks j % chars.length`.
-/

namespace Strokes

/-- A character is a single glyph. -/
abbrev Character := Char

/-- A stroke descriptor is an opaque path string. -/
abbrev Stroke := String

/-- Python exceptions the modelled code can raise. -/
inductive PyErr where
  | keyError (c : Character)
  | indexError
  | zeroDivision
  deriving DecidableEq, Repr

/-- A cell request: the arguments `gen_images` passes to `get_image`
(character, emphasized stroke, strokes skipped from the front, index to
stop at, pronunciation overlay text). -/
structure Req where
  char : Character
  img_num : Nat
  skip_strokes : Nat
  stop_at : Nat
  add_text : String
  deriving DecidableEq, Repr

/-- Build a finite map from an ordered list of records; a later record
with the same key overwrites an earlier one, as in a Python dict
comprehension. -/
def dictOf {α : Type} (records : List (Character × α)) : Character → Option α :=
  records.foldl (fun m kv => fun c => if c = kv.1 then some kv.2 else m c) (fun _ => none)

/-- Embeds `load_strokes_db`: build the dict of parsed records of
graphics.txt, then set `ret['X'] = []`. -/
def load_strokes_db (records : List (Character × List Stroke)) :
    Character → Option (List Stroke) :=
  let ret := dictOf records
  fun c => if c = 'X' then some [] else ret c

/-- Embeds `load_dictionary`: keep `j['pinyin'][0]` for every record whose
pinyin list is non-empty, then set `d['X'] = ''`. -/
def load_dictionary (records : List (Character × List String)) :
    Character → Option String :=
  let d := dictOf (records.filterMap fun r =>
    match r.2 with
    | [] => none
    | p :: _ => some (r.1, p))
  fun c => if c = 'X' then some "" else d c

/-- Decimal digits of `n`, most significant first; embeds Python's
`'%d' % n`. -/
def decRepr (n : Nat) : List Char :=
  if n = 0 then ['0'] else ((Nat.digits 10 n).map Nat.digitChar).reverse

/-- The cache-key filename of `get_image`, as a character list:
`C + '%d-%d-%d.svg' % (img_num, skip_strokes, stop_at)`. -/
def fname_chars (C : Character) (img_num skip_strokes stop_at : Nat) : List Char :=
  C :: (decRepr img_num ++ '-' :: (decRepr skip_strokes ++ '-' :: (decRepr stop_at ++ ".svg".data)))

/-- The cache-key filename of `get_image`, as a string. -/
def fname (C : Character) (img_num skip_strokes stop_at : Nat) : String :=
  ⟨fname_chars C img_num skip_strokes stop_at⟩

/-- Result of one `get_image` call: the returned filename, the manifest
list after the call, and whether this call performed the rendering work
(wrote the file and appended to the manifest). -/
structure CacheResult where
  file : String
  images : List String
  rendered : Bool
  deriving DecidableEq, Repr

/-- Embeds `get_image`: compute the filename; if it is already in the
`images` manifest return it unchanged, otherwise render (write the file),
append it to the manifest and return it. -/
def get_image (r : Req) (images : List String) : CacheResult :=
  let f := fname r.char r.img_num r.skip_strokes r.stop_at
  if f ∈ images then ⟨f, images, false⟩
  else ⟨f, images ++ [f], true⟩

/-! The `gen_images` generator.

The Python generator is lazy: `strokes_db[C]` is evaluated when the loop
reaches character `C`, and `P[C]` when the first `get_image` call for `C`
is built (so never for a zero-stroke character during the drill phase).
We model one character's contribution (`char_block`), the drill phase of
a pass (`drills`), the random-review phase (`review_steps`), a whole pass
(`pass_block`), and finally `pull_from p k`, the k-th `next()` result
(counting from pass `p`): either the request yielded or the exception
raised by that `next()` call. -/

/-- The requests contributed by one character in the drill phase,
together with the exception (if any) raised while producing them. For a
character with strokes `s[0..n)`: for each `i < n`, 3 repetitions of
`get_image(C, i, images, strokes, 0, i+1, P[C])` then 3 repetitions of
`get_image(C, 0, images, strokes, i+1, 99, P[C])`. -/
def char_block (strokes_db : Character → Option (List Stroke))
    (P : Character → Option String) (C : Character) : List Req × Option PyErr :=
  match strokes_db C with
  | none => ([], some (.keyError C))
  | some strokes =>
    if strokes.length = 0 then ([], none)
    else
      match P C with
      | none => ([], some (.keyError C))
      | some t =>
        ((List.range strokes.length).bind fun i =>
          List.replicate 3 ⟨C, i, 0, i + 1, t⟩ ++ List.replicate 3 ⟨C, 0, i + 1, 99, t⟩,
         none)

/-- The drill phase of one pass: the characters' blocks concatenated,
stopping at the first exception. -/
def drills (strokes_db : Character → Option (List Stroke))
    (P : Character → Option String) : List Character → List Req × Option PyErr
  | [] => ([], none)
  | C :: rest =>
    match char_block strokes_db P C with
    | (l, some e) => (l, some e)
    | (l, none) =>
      let r := drills strokes_db P rest
      (l ++ r.1, r.2)

/-- `m` remaining steps of the random-review phase, the next review draw
being the `j`-th overall: `C = random.choice(chars)` then
`get_image(C, 0, images, [], 99, 99, P[C])`. `random.choice` raises
IndexError on an empty list; on a non-empty list it returns the entry at
the oracle's index (`getD` never falls back to its default then). -/
def review_steps (chars : List Character) (P : Character → Option String)
    (picks : Nat → Nat) : Nat → Nat → List Req × Option PyErr
  | 0, _ => ([], none)
  | m + 1, j =>
    if chars.length = 0 then ([], some .indexError)
    else
      let C := chars.getD (picks j % chars.length) 'X'
      match P C with
      | none => ([], some (.keyError C))
      | some t =>
        let r := review_steps chars P picks m (j + 1)
        (⟨C, 0, 99, 99, t⟩ :: r.1, r.2)

/-- One full pass of the `while True` loop: all characters' drill blocks,
then 10 random-review requests (pass `p` consumes review draws
`10*p .. 10*p+9` of the oracle). -/
def pass_block (chars : List Character) (strokes_db : Character → Option (List Stroke))
    (P : Character → Option String) (picks : Nat → Nat) (p : Nat) :
    List Req × Option PyErr :=
  match drills strokes_db P chars with
  | (l, some e) => (l, some e)
  | (l, none) =>
    let r := review_steps chars P picks 10 (10 * p)
    (l ++ r.1, r.2)

theorem review_steps_length_of_no_error (chars : List Character)
    (P : Character → Option String) (picks : Nat → Nat) :
    ∀ m j, (review_steps chars P picks m j).2 = none →
      (review_steps chars P picks m j).1.length = m := by
  intro m
  induction m with
  | zero => intro j _; rfl
  | succ m ih =>
    intro j h
    rw [review_steps] at h ⊢
    by_cases hc : chars.length = 0
    · simp [hc] at h
    · simp only [hc, if_false, List.getD_eq_getElem?_getD] at h ⊢
      cases hP : P (chars[picks j % chars.length]?.getD 'X') with
      | none => simp [hP] at h
      | some t =>
        simp only [hP] at h ⊢
        simpa using ih (j + 1) h

theorem pass_block_length_of_no_error (chars : List Character)
    (strokes_db : Character → Option (List Stroke)) (P : Character → Option String)
    (picks : Nat → Nat) (p : Nat) :
    (pass_block chars strokes_db P picks p).2 = none →
      10 ≤ (pass_block chars strokes_db P picks p).1.length := by
  intro h
  rw [pass_block] at h ⊢
  cases hd : drills strokes_db P chars with
  | mk l e =>
    cases e with
    | some e => simp [hd] at h
    | none =>
      simp only [hd] at h ⊢
      have := review_steps_length_of_no_error chars P picks 10 (10 * p) h
      simp [List.length_append, this]

/-- The k-th item of the lazy stream, starting the count at pass `p`:
the request yielded by that `next()` call, or the exception it raises. -/
def pull_from (chars : List Character) (strokes_db : Character → Option (List Stroke))
    (P : Character → Option String) (picks : Nat → Nat) (p k : Nat) :
    Except PyErr Req :=
  if h : k < (pass_block chars strokes_db P picks p).1.length then
    .ok ((pass_block chars strokes_db P picks p).1.get ⟨k, h⟩)
  else
    match hb : (pass_block chars strokes_db P picks p).2 with
    | some e => .error e
    | none =>
      pull_from chars strokes_db P picks (p + 1)
        (k - (pass_block chars strokes_db P picks p).1.length)
termination_by k
decreasing_by
  have h10 := pass_block_length_of_no_error chars strokes_db P picks p hb
  omega

/-- Default request used only as the fallback of `List.getD`. -/
def dfltReq : Req := ⟨'X', 0, 0, 0, ""⟩

/-- The drill requests one character should contribute according to the
spec: for each stroke index `i` in order, 3 repetitions of
`(C, emphasis i, skip 0, stop i+1)` then 3 repetitions of
`(C, emphasis 0, skip i+1, stop 99)`. -/
def char_drills_spec (strokes_db : Character → Option (List Stroke))
    (P : Character → Option String) (C : Character) : List Req :=
  (List.range ((strokes_db C).getD []).length).bind fun i =>
    List.replicate 3 ⟨C, i, 0, i + 1, (P C).getD ""⟩ ++
    List.replicate 3 ⟨C, 0, i + 1, 99, (P C).getD ""⟩

/-- The `j`-th random-review request overall (spec side): a character
drawn from the target list, zero strokes shown (skip and stop both the
99 sentinel). -/
def review_item (chars : List Character) (P : Character → Option String)
    (picks : Nat → Nat) (j : Nat) : Req :=
  let C := chars.getD (picks j % chars.length) 'X'
  ⟨C, 0, 99, 99, (P C).getD ""⟩

/-- One full pass as the spec describes it: every character's drill
block in list order, then 10 random-review requests. -/
def curriculum_pass_spec (chars : List Character)
    (strokes_db : Character → Option (List Stroke)) (P : Character → Option String)
    (picks : Nat → Nat) (p : Nat) : List Req :=
  chars.bind (char_drills_spec strokes_db P) ++
    (List.range 10).map fun j => review_item chars P picks (10 * p + j)

theorem char_block_ok (strokes_db : Character → Option (List Stroke))
    (P : Character → Option String) (C : Character)
    (h1 : (strokes_db C).isSome) (h2 : (P C).isSome) :
    char_block strokes_db P C = (char_drills_spec strokes_db P C, none) := by
  obtain ⟨s, hs⟩ := Option.isSome_iff_exists.mp h1
  obtain ⟨t, ht⟩ := Option.isSome_iff_exists.mp h2
  unfold char_block char_drills_spec
  rw [hs, ht]
  by_cases h0 : s.length = 0
  · have hnil : s = [] := List.length_eq_zero.mp h0
    subst hnil; simp
  · simp [h0]

theorem drills_ok (strokes_db : Character → Option (List Stroke))
    (P : Character → Option String) (chars : List Character)
    (hok : ∀ C ∈ chars, (strokes_db C).isSome ∧ (P C).isSome) :
    drills strokes_db P chars = (chars.bind (char_drills_spec strokes_db P), none) := by
  induction chars with
  | nil => rfl
  | cons C rest ih =>
    have hC := hok C (List.mem_cons_self C rest)
    have hrest : ∀ C ∈ rest, (strokes_db C).isSome ∧ (P C).isSome :=
      fun c hc => hok c (List.mem_cons_of_mem C hc)
    rw [drills, char_block_ok strokes_db P C hC.1 hC.2, ih hrest]
    simp

theorem review_steps_ok (chars : List Character) (P : Character → Option String)
    (picks : Nat → Nat) (hne : chars.length ≠ 0)
    (hP : ∀ C ∈ chars, (P C).isSome) :
    ∀ m j, review_steps chars P picks m j =
      ((List.range m).map fun i => review_item chars P picks (j + i), none) := by
  intro m
  induction m with
  | zero => intro j; rfl
  | succ m ih =>
    intro j
    rw [review_steps]
    have hmem : chars.getD (picks j % chars.length) 'X' ∈ chars := by
      rw [List.getD_eq_getElem chars 'X' (Nat.mod_lt _ (Nat.pos_of_ne_zero hne))]
      exact List.getElem_mem _
    obtain ⟨t, ht⟩ := Option.isSome_iff_exists.mp (hP _ hmem)
    simp only [hne, if_false, ht, ih (j + 1)]
    rw [List.range_succ_eq_map]
    simp only [List.map_cons, List.map_map, Prod.mk.injEq]
    refine ⟨?_, trivial⟩
    congr 1
    · rw [List.getD_eq_getElem?_getD] at ht
      simp [review_item, ht, List.getD_eq_getElem?_getD]
    · congr 1
      funext i
      simp only [Function.comp_apply]
      congr 1
      omega

theorem pass_block_ok (chars : List Character)
    (strokes_db : Character → Option (List Stroke)) (P : Character → Option String)
    (picks : Nat → Nat) (hne : chars ≠ [])
    (hok : ∀ C ∈ chars, (strokes_db C).isSome ∧ (P C).isSome) (p : Nat) :
    pass_block chars strokes_db P picks p =
      (curriculum_pass_spec chars strokes_db P picks p, none) := by
  have hlen : chars.length ≠ 0 := fun h => hne (List.length_eq_zero.mp h)
  rw [pass_block, drills_ok strokes_db P chars hok,
    review_steps_ok chars P picks hlen (fun C hC => (hok C hC).2) 10 (10 * p)]
  rfl

theorem curriculum_pass_spec_length (chars : List Character)
    (strokes_db : Character → Option (List Stroke)) (P : Character → Option String)
    (picks : Nat → Nat) (p : Nat) :
    (curriculum_pass_spec chars strokes_db P picks p).length =
      (chars.bind (char_drills_spec strokes_db P)).length + 10 := by
  simp [curriculum_pass_spec]

theorem pull_from_ok (chars : List Character)
    (strokes_db : Character → Option (List Stroke)) (P : Character → Option String)
    (picks : Nat → Nat) (hne : chars ≠ [])
    (hok : ∀ C ∈ chars, (strokes_db C).isSome ∧ (P C).isSome) :
    ∀ k p, pull_from chars strokes_db P picks p k =
      .ok ((curriculum_pass_spec chars strokes_db P picks
              (p + k / ((chars.bind (char_drills_spec strokes_db P)).length + 10))).getD
            (k % ((chars.bind (char_drills_spec strokes_db P)).length + 10)) dfltReq) := by
  intro k
  induction k using Nat.strong_induction_on with
  | _ k ih =>
    intro p
    set L := (chars.bind (char_drills_spec strokes_db P)).length + 10 with hL
    have hLpos : 0 < L := by omega
    have hpass := pass_block_ok chars strokes_db P picks hne hok p
    have hlen : (pass_block chars strokes_db P picks p).1.length = L := by
      rw [hpass]
      exact curriculum_pass_spec_length chars strokes_db P picks p
    rw [pull_from]
    by_cases hk : k < L
    · rw [dif_pos (hlen ▸ hk)]
      rw [Nat.div_eq_of_lt hk, Nat.mod_eq_of_lt hk, Nat.add_zero]
      congr 1
      have hk2 : k < (curriculum_pass_spec chars strokes_db P picks p).length := by
        rw [curriculum_pass_spec_length]; exact hk
      rw [List.getD_eq_getElem _ dfltReq hk2]
      simp [hpass]
    · rw [dif_neg (by rw [hlen]; exact hk)]
      have h2 : (pass_block chars strokes_db P picks p).2 = none := by rw [hpass]
      split
      · next e he => rw [h2] at he; exact absurd he (by simp)
      · next he =>
        rw [hlen]
        have hkL : L ≤ k := Nat.le_of_not_lt hk
        have hrec := ih (k - L) (by omega) (p + 1)
        have hdiv : p + 1 + (k - L) / L = p + k / L := by
          rw [Nat.div_eq_sub_div hLpos hkL]; omega
        have hmod : (k - L) % L = k % L := (Nat.mod_eq_sub_mod hkL).symm
        rw [hrec, hdiv, hmod]

theorem length_bind_range_const {α : Type} (f : Nat → List α) (n : Nat)
    (h : ∀ i, (f i).length = 6) : ((List.range n).bind f).length = 6 * n := by
  rw [List.length_bind]
  have hrw : List.map (List.length ∘ f) (List.range n) = List.replicate n 6 := by
    rw [List.eq_replicate]
    refine ⟨by simp, ?_⟩
    intro b hb
    obtain ⟨i, _, hi⟩ := List.mem_map.mp hb
    rw [← hi, Function.comp_apply, h]
  rw [hrw, List.sum_replicate, smul_eq_mul, Nat.mul_comm]

theorem char_drills_spec_length (strokes_db : Character → Option (List Stroke))
    (P : Character → Option String) (C : Character) :
    (char_drills_spec strokes_db P C).length = 6 * ((strokes_db C).getD []).length := by
  unfold char_drills_spec
  exact length_bind_range_const _ _ (fun i => by simp)

/-- C1: for every target list of known characters (each present in the
stroke store and the pronunciation store), every pass of `gen_images`
equals the spec-shaped pass `curriculum_pass_spec` — for each character,
per stroke index `i` in order, 3 repetitions of
`(C, emphasis i, skip 0, stop i+1)` then 3 of `(C, emphasis 0, skip i+1,
stop 99)`, hence exactly `6n` drill requests for a character with `n`
strokes — followed by exactly 10 random-review requests whose character
is drawn from the target list with skip and stop both the 99 sentinel;
and the pulled stream never raises: the k-th pull is item `k mod L` of
pass `k div L` where `L` is the fixed pass length, so the pass pattern
repeats indefinitely. -/
theorem curriculum_cycle_structure
    (chars : List Character) (strokes_db : Character → Option (List Stroke))
    (P : Character → Option String) (picks : Nat → Nat)
    (hne : chars ≠ [])
    (hok : ∀ C ∈ chars, (strokes_db C).isSome ∧ (P C).isSome) :
    (∀ p, pass_block chars strokes_db P picks p =
        (curriculum_pass_spec chars strokes_db P picks p, none))
    ∧ (∀ C ∈ chars, (char_block strokes_db P C).1.length =
        6 * ((strokes_db C).getD []).length)
    ∧ (∀ j, (review_item chars P picks j).char ∈ chars ∧
        (review_item chars P picks j).skip_strokes = 99 ∧
        (review_item chars P picks j).stop_at = 99)
    ∧ (∀ k, pull_from chars strokes_db P picks 0 k =
        .ok ((curriculum_pass_spec chars strokes_db P picks
              (k / ((chars.bind (char_drills_spec strokes_db P)).length + 10))).getD
            (k % ((chars.bind (char_drills_spec strokes_db P)).length + 10)) dfltReq)) := by
  have hlen : chars.length ≠ 0 := fun h => hne (List.length_eq_zero.mp h)
  refine ⟨pass_block_ok chars strokes_db P picks hne hok, ?_, ?_, ?_⟩
  · intro C hC
    rw [char_block_ok strokes_db P C (hok C hC).1 (hok C hC).2]
    exact char_drills_spec_length strokes_db P C
  · intro j
    refine ⟨?_, rfl, rfl⟩
    show chars.getD (picks j % chars.length) 'X' ∈ chars
    rw [List.getD_eq_getElem chars 'X' (Nat.mod_lt _ (Nat.pos_of_ne_zero hlen))]
    exact List.getElem_mem _
  · intro k
    have := pull_from_ok chars strokes_db P picks hne hok k 0
    simpa using this

/-- Witness for C1 at a concrete input: with the single placeholder
character (zero strokes), the 4th pull is the review request for `'X'`
with the 99 sentinels. -/
theorem curriculum_cycle_structure_witness :
    pull_from ['X'] (load_strokes_db []) (load_dictionary []) (fun _ => 0) 0 3 =
      .ok ⟨'X', 0, 99, 99, ""⟩ := by
  have h := curriculum_cycle_structure ['X'] (load_strokes_db []) (load_dictionary [])
    (fun _ => 0) (by simp) (by decide)
  rw [h.2.2.2 3]
  rfl

/-- C7: a character whose stroke list is empty contributes zero drill
requests and no exception: its block is `([], none)`, and the drill
phase of a pass with it inserted anywhere equals the drill phase
without it, so the pass falls through to the remaining characters and
the review phase. -/
theorem zero_stroke_falls_through (strokes_db : Character → Option (List Stroke))
    (P : Character → Option String) (Z : Character)
    (hZ : strokes_db Z = some []) (pre post : List Character) :
    char_block strokes_db P Z = ([], none)
    ∧ drills strokes_db P (pre ++ Z :: post) = drills strokes_db P (pre ++ post) := by
  have hcb : char_block strokes_db P Z = ([], none) := by
    unfold char_block; rw [hZ]; simp
  refine ⟨hcb, ?_⟩
  induction pre with
  | nil => simp [drills, hcb]
  | cons C rest ih =>
    rw [List.cons_append, List.cons_append, drills, drills]
    cases hC : char_block strokes_db P C with
    | mk l e =>
      cases e with
      | some er => simp only [hC]
      | none => simp only [hC]; rw [ih]

/-- Witness for C7: the placeholder `'X'` between two known characters
contributes nothing to the drill phase. -/
theorem zero_stroke_falls_through_witness :
    char_block (load_strokes_db [('a', ["s"])]) (load_dictionary [('a', ["pa"])]) 'X' = ([], none)
    ∧ drills (load_strokes_db [('a', ["s"])]) (load_dictionary [('a', ["pa"])])
        (['a'] ++ 'X' :: []) =
      drills (load_strokes_db [('a', ["s"])]) (load_dictionary [('a', ["pa"])]) (['a'] ++ []) :=
  zero_stroke_falls_through (load_strokes_db [('a', ["s"])])
    (load_dictionary [('a', ["pa"])]) 'X' (by decide) ['a'] []

/-! The page layout engine `gen_svg`. -/

/-- The fixed page dimensions. -/
def PAGE_SIZE : Nat × Nat := (200, 300)

/-- One cell placement written by `gen_svg`'s loop:
`IMAGE_TPL % (x, y, size, size, fname)`. -/
structure Placement where
  x : Nat
  y : Nat
  w : Nat
  h : Nat
  href : String
  deriving DecidableEq, Repr

/-- The composite document: header text, cell placements in emission
order, and the run's image manifest (the `images` list `gen_svg`
returns). -/
structure Page where
  header : String
  cells : List Placement
  images : List String
  deriving DecidableEq, Repr

/-- Default placement used only as the fallback of `List.getD`. -/
def dfltPlacement : Placement := ⟨0, 0, 0, 0, ""⟩

/-- Embeds the header expression of `gen_svg`:
`', '.join('%s (%s)' % (c, P[c]) for c in chars)`; `P[c]` raises
KeyError at the first character missing from the dictionary. -/
def header_join (chars : List Character) (P : Character → Option String) :
    Except PyErr String := do
  let parts ← chars.mapM fun c =>
    match P c with
    | none => Except.error (PyErr.keyError c)
    | some p => Except.ok (String.singleton c ++ " (" ++ p ++ ")")
  return String.intercalate ", " parts

/-- The first `n` items pulled from the `gen_images` iterator (the
`next(gen_images_iter)` calls of `gen_svg`'s loop), or the exception the
failing pull raises. -/
def pull_many (chars : List Character) (strokes_db : Character → Option (List Stroke))
    (P : Character → Option String) (picks : Nat → Nat) (n : Nat) :
    Except PyErr (List Req) :=
  (List.range n).mapM (pull_from chars strokes_db P picks 0)

/-- The cell loop of `gen_svg`: realize item `i` through the cell cache
and place it at `x = (i % num_per_row) * size`,
`y = ((i div num_per_row) + 1) * size` with width and height `size`. -/
def render_cells (size npr : Nat) : List Req → Nat → List String → List Placement × List String
  | [], _, images => ([], images)
  | r :: rest, i, images =>
    let g := get_image r images
    let t := render_cells size npr rest (i + 1) g.images
    (⟨(i % npr) * size, (i / npr + 1) * size, size, size, g.file⟩ :: t.1, t.2)

/-- Embeds `gen_svg`: load the dictionary, compute the grid from
`PAGE_SIZE` and `size` (Python division by zero raises), build the
header (possibly raising KeyError), pull
`num_per_row * (num_rows - 1)` cells from the curriculum and place them
row-major below the header row. -/
def gen_svg (chars : List Character) (strokes_db : Character → Option (List Stroke))
    (size : Nat) (dict_records : List (Character × List String)) (picks : Nat → Nat) :
    Except PyErr Page :=
  let P := load_dictionary dict_records
  if size = 0 then .error .zeroDivision
  else
    let num_per_row := PAGE_SIZE.1 / size
    let num_rows := PAGE_SIZE.2 / size
    match header_join chars P with
    | .error e => .error e
    | .ok header =>
      match pull_many chars strokes_db P picks (num_per_row * (num_rows - 1)) with
      | .error e => .error e
      | .ok reqs =>
        let rc := render_cells size num_per_row reqs 0 []
        .ok ⟨header, rc.1, rc.2⟩

theorem mapM_ok_of_forall {α β : Type} (f : α → Except PyErr β) (g : α → β)
    (l : List α) (h : ∀ a ∈ l, f a = .ok (g a)) : l.mapM f = .ok (l.map g) := by
  induction l with
  | nil => rfl
  | cons a rest ih =>
    rw [List.mapM_cons, h a (List.mem_cons_self a rest),
      ih fun x hx => h x (List.mem_cons_of_mem a hx)]
    rfl

theorem header_join_ok (chars : List Character) (P : Character → Option String)
    (pr : Character → String) (h : ∀ c ∈ chars, P c = some (pr c)) :
    header_join chars P = .ok (String.intercalate ", "
      (chars.map fun c => String.singleton c ++ " (" ++ pr c ++ ")")) := by
  have hm := mapM_ok_of_forall
    (fun c => match P c with
     | none => Except.error (PyErr.keyError c)
     | some p => Except.ok (String.singleton c ++ " (" ++ p ++ ")"))
    (fun c => String.singleton c ++ " (" ++ pr c ++ ")") chars
    (fun c hc => by simp [h c hc])
  rw [header_join, hm]
  rfl

/-- C9: when every target character has a pronunciation entry, the
header is the comma-separated join, in input order, of the strings
`"C (pinyin)"`. -/
theorem header_text (chars : List Character) (P : Character → Option String)
    (pr : Character → String) (h : ∀ c ∈ chars, P c = some (pr c)) :
    header_join chars P = .ok (String.intercalate ", "
      (chars.map fun c => String.singleton c ++ " (" ++ pr c ++ ")")) :=
  header_join_ok chars P pr h

/-- Witness for C9: the header for `["你","好"]` with pronunciations
nǐ and hǎo. -/
theorem header_text_witness :
    header_join ['你', '好'] (load_dictionary [('你', ["nǐ"]), ('好', ["hǎo"])]) =
      .ok "你 (nǐ), 好 (hǎo)" := by
  have h := header_text ['你', '好'] (load_dictionary [('你', ["nǐ"]), ('好', ["hǎo"])])
    (fun c => if c = '你' then "nǐ" else "hǎo") (by decide)
  rw [h]
  rfl

theorem get_image_file (r : Req) (images : List String) :
    (get_image r images).file = fname r.char r.img_num r.skip_strokes r.stop_at := by
  by_cases h : fname r.char r.img_num r.skip_strokes r.stop_at ∈ images <;>
    simp [get_image, h]

theorem render_cells_length (size npr : Nat) (reqs : List Req) :
    ∀ i images, (render_cells size npr reqs i images).1.length = reqs.length := by
  induction reqs with
  | nil => intro i images; rfl
  | cons r rest ih => intro i images; simp [render_cells, ih]

theorem render_cells_getD (size npr : Nat) (reqs : List Req) :
    ∀ i images k, k < reqs.length →
      (render_cells size npr reqs i images).1.getD k dfltPlacement =
        ⟨((i + k) % npr) * size, ((i + k) / npr + 1) * size, size, size,
         fname (reqs.getD k dfltReq).char (reqs.getD k dfltReq).img_num
           (reqs.getD k dfltReq).skip_strokes (reqs.getD k dfltReq).stop_at⟩ := by
  induction reqs with
  | nil => intro i images k hk; simp at hk
  | cons r rest ih =>
    intro i images k hk
    cases k with
    | zero => simp [render_cells, get_image_file]
    | succ k =>
      have hk2 : k < rest.length := by simpa using hk
      have hstep := ih (i + 1) (get_image r images).images k hk2
      simp only [render_cells, List.getD_cons_succ]
      rw [hstep]
      have harith : i + 1 + k = i + (k + 1) := by omega
      rw [harith]

theorem getD_map_range {α : Type} (f : Nat → α) (n k : Nat) (hk : k < n) (d : α) :
    ((List.range n).map f).getD k d = f k := by
  rw [List.getD_eq_getElem _ d (by simpa using hk)]
  simp

/-- C2: for any positive cell size and fully-known character list,
`gen_svg` succeeds and materializes exactly
`num_per_row * (num_rows - 1)` placements, where
`num_per_row = 200 div size` and `num_rows = 300 div size` (580 for
size 10); placement `k` holds the artifact of the k-th pulled request at
`x = (k mod num_per_row) * size`, `y = ((k div num_per_row) + 1) * size`
with width and height `size`; distinct placements never share a slot
(no overlap) and every content-grid slot is used (no gaps). -/
theorem layout_engine_exact (chars : List Character)
    (strokes_db : Character → Option (List Stroke))
    (dict_records : List (Character × List String)) (picks : Nat → Nat) (size : Nat)
    (hsz : 0 < size) (hne : chars ≠ [])
    (hok : ∀ C ∈ chars, (strokes_db C).isSome ∧ (load_dictionary dict_records C).isSome) :
    ∃ page, gen_svg chars strokes_db size dict_records picks = .ok page
    ∧ page.cells.length = (PAGE_SIZE.1 / size) * (PAGE_SIZE.2 / size - 1)
    ∧ (size = 10 → page.cells.length = 580)
    ∧ (∀ k, k < page.cells.length → ∃ r,
        pull_from chars strokes_db (load_dictionary dict_records) picks 0 k = .ok r
        ∧ page.cells.getD k dfltPlacement =
            ⟨(k % (PAGE_SIZE.1 / size)) * size, (k / (PAGE_SIZE.1 / size) + 1) * size,
             size, size, fname r.char r.img_num r.skip_strokes r.stop_at⟩)
    ∧ (∀ k1 k2, k1 < page.cells.length → k2 < page.cells.length →
        (page.cells.getD k1 dfltPlacement).x = (page.cells.getD k2 dfltPlacement).x →
        (page.cells.getD k1 dfltPlacement).y = (page.cells.getD k2 dfltPlacement).y →
        k1 = k2)
    ∧ (∀ col row, col < PAGE_SIZE.1 / size → row < PAGE_SIZE.2 / size - 1 →
        ∃ k, k < page.cells.length
          ∧ (page.cells.getD k dfltPlacement).x = col * size
          ∧ (page.cells.getD k dfltPlacement).y = (row + 1) * size) := by
  have hszne : ¬ size = 0 := Nat.pos_iff_ne_zero.mp hsz
  set P := load_dictionary dict_records with hP
  set npr := PAGE_SIZE.1 / size with hnpr
  set nr := PAGE_SIZE.2 / size with hnr
  set N := npr * (nr - 1) with hN
  set L := (chars.bind (char_drills_spec strokes_db P)).length + 10 with hLdef
  set item : Nat → Req := fun k =>
    (curriculum_pass_spec chars strokes_db P picks (k / L)).getD (k % L) dfltReq with hitem
  have hhead := header_join_ok chars P (fun c => (P c).getD "") (fun c hc => by
    obtain ⟨t, ht⟩ := Option.isSome_iff_exists.mp (hok c hc).2
    simp [ht])
  have hstream : ∀ k, pull_from chars strokes_db P picks 0 k = .ok (item k) := by
    intro k
    have h0 := pull_from_ok chars strokes_db P picks hne hok k 0
    rw [Nat.zero_add] at h0
    exact h0
  have hpull : pull_many chars strokes_db P picks N = .ok ((List.range N).map item) := by
    apply mapM_ok_of_forall
    intro k _
    exact hstream k
  have hcells :
      gen_svg chars strokes_db size dict_records picks =
        .ok ⟨String.intercalate ", " (chars.map fun c => String.singleton c ++ " (" ++ (P c).getD "" ++ ")"),
             (render_cells size npr ((List.range N).map item) 0 []).1,
             (render_cells size npr ((List.range N).map item) 0 []).2⟩ := by
    rw [gen_svg]
    simp only [hszne, if_false, ← hP, ← hnpr, ← hnr, ← hN, hhead, hpull]
  have hlen : (render_cells size npr ((List.range N).map item) 0 []).1.length = N := by
    rw [render_cells_length]
    simp
  refine ⟨_, hcells, ?_, ?_, ?_, ?_, ?_⟩
  · rw [hlen]
  · intro h10
    rw [hlen, hN, hnpr, hnr, h10]
    rfl
  · intro k hk
    rw [hlen] at hk
    refine ⟨item k, hstream k, ?_⟩
    have hgd := render_cells_getD size npr ((List.range N).map item) 0 [] k
      (by simpa using hk)
    rw [getD_map_range item N k hk] at hgd
    simpa using hgd
  · intro k1 k2 hk1 hk2 hx hy
    rw [hlen] at hk1 hk2
    have hgd1 := render_cells_getD size npr ((List.range N).map item) 0 [] k1
      (by simpa using hk1)
    have hgd2 := render_cells_getD size npr ((List.range N).map item) 0 [] k2
      (by simpa using hk2)
    rw [hgd1, hgd2] at hx hy
    simp only [Nat.zero_add] at hx hy
    have hmod : k1 % npr = k2 % npr := Nat.eq_of_mul_eq_mul_right hsz hx
    have hdiv : k1 / npr = k2 / npr := by
      have h := Nat.eq_of_mul_eq_mul_right hsz hy
      omega
    calc k1 = npr * (k1 / npr) + k1 % npr := (Nat.div_add_mod k1 npr).symm
      _ = npr * (k2 / npr) + k2 % npr := by rw [hmod, hdiv]
      _ = k2 := Nat.div_add_mod k2 npr
  · intro col row hcol hrow
    have hnprpos : 0 < npr := Nat.lt_of_le_of_lt (Nat.zero_le _) hcol
    have hkN : row * npr + col < N := by
      have h1 : row * npr + col < (row + 1) * npr := by
        rw [Nat.succ_mul]; omega
      have h2 : (row + 1) * npr ≤ (nr - 1) * npr :=
        Nat.mul_le_mul_right npr (by omega)
      have h3 : (nr - 1) * npr = N := by rw [hN, Nat.mul_comm]
      omega
    have hgd := render_cells_getD size npr ((List.range N).map item) 0 [] (row * npr + col)
      (by simpa using hkN)
    simp only [Nat.zero_add] at hgd
    refine ⟨row * npr + col, by rw [hlen]; exact hkN, ?_, ?_⟩
    · rw [hgd]
      have hm : (row * npr + col) % npr = col := by
        rw [Nat.add_comm, Nat.add_mul_mod_self_right, Nat.mod_eq_of_lt hcol]
      rw [hm]
    · rw [hgd]
      have hd : (row * npr + col) / npr = row := by
        rw [Nat.add_comm, Nat.add_mul_div_right _ _ hnprpos, Nat.div_eq_of_lt hcol]
        omega
      rw [hd]

/-- Witness for C2: the single-placeholder curriculum at size 10 yields
a successful page with exactly 580 placements. -/
theorem layout_engine_exact_witness :
    ∃ page, gen_svg ['X'] (load_strokes_db []) 10 [] (fun _ => 0) = .ok page
      ∧ page.cells.length = 580 := by
  obtain ⟨page, h1, _, h3, _⟩ := layout_engine_exact ['X'] (load_strokes_db []) []
    (fun _ => 0) 10 (by omega) (by simp) (by decide)
  exact ⟨page, h1, h3 rfl⟩

/-- C5: two cache requests with the same key `(character, emphasisIndex,
skipCount, stopIndex)` — possibly differing in overlay text — perform
the rendering work exactly once when the key is new to the run: the
first call renders and appends the filename to the manifest exactly
once, the second returns the identical artifact reference without
rendering and leaves the manifest unchanged. -/
theorem cache_exactly_once (r1 r2 : Req) (images : List String)
    (hc : r2.char = r1.char) (hi : r2.img_num = r1.img_num)
    (hs : r2.skip_strokes = r1.skip_strokes) (ht : r2.stop_at = r1.stop_at)
    (hnew : fname r1.char r1.img_num r1.skip_strokes r1.stop_at ∉ images) :
    (get_image r1 images).rendered = true
    ∧ (get_image r1 images).file = fname r1.char r1.img_num r1.skip_strokes r1.stop_at
    ∧ (get_image r1 images).images =
        images ++ [fname r1.char r1.img_num r1.skip_strokes r1.stop_at]
    ∧ (get_image r2 (get_image r1 images).images).rendered = false
    ∧ (get_image r2 (get_image r1 images).images).file = (get_image r1 images).file
    ∧ (get_image r2 (get_image r1 images).images).images = (get_image r1 images).images
    ∧ (get_image r1 images).images.count
        (fname r1.char r1.img_num r1.skip_strokes r1.stop_at) = 1 := by
  have hf2 : fname r2.char r2.img_num r2.skip_strokes r2.stop_at =
      fname r1.char r1.img_num r1.skip_strokes r1.stop_at := by
    rw [hc, hi, hs, ht]
  have hg1 : get_image r1 images =
      ⟨fname r1.char r1.img_num r1.skip_strokes r1.stop_at,
       images ++ [fname r1.char r1.img_num r1.skip_strokes r1.stop_at], true⟩ := by
    simp [get_image, hnew]
  have hmem : fname r1.char r1.img_num r1.skip_strokes r1.stop_at ∈
      images ++ [fname r1.char r1.img_num r1.skip_strokes r1.stop_at] := by simp
  have hg2 : get_image r2
      (images ++ [fname r1.char r1.img_num r1.skip_strokes r1.stop_at]) =
      ⟨fname r1.char r1.img_num r1.skip_strokes r1.stop_at,
       images ++ [fname r1.char r1.img_num r1.skip_strokes r1.stop_at], false⟩ := by
    simp [get_image, hf2, hmem]
  rw [hg1]
  refine ⟨rfl, rfl, rfl, ?_, ?_, ?_, ?_⟩
  · rw [hg2]
  · rw [hg2]
  · rw [hg2]
  · rw [List.count_append, List.count_eq_zero.mpr hnew]
    simp

/-- Witness for C5: two requests sharing the key `('a', 1, 2, 3)` but
with different overlay text, against an empty manifest. -/
theorem cache_exactly_once_witness :
    (get_image ⟨'a', 1, 2, 3, "x"⟩ []).rendered = true
    ∧ (get_image ⟨'a', 1, 2, 3, "x"⟩ []).file = fname 'a' 1 2 3
    ∧ (get_image ⟨'a', 1, 2, 3, "x"⟩ []).images = [] ++ [fname 'a' 1 2 3]
    ∧ (get_image ⟨'a', 1, 2, 3, "y"⟩ (get_image ⟨'a', 1, 2, 3, "x"⟩ []).images).rendered = false
    ∧ (get_image ⟨'a', 1, 2, 3, "y"⟩ (get_image ⟨'a', 1, 2, 3, "x"⟩ []).images).file =
        (get_image ⟨'a', 1, 2, 3, "x"⟩ []).file
    ∧ (get_image ⟨'a', 1, 2, 3, "y"⟩ (get_image ⟨'a', 1, 2, 3, "x"⟩ []).images).images =
        (get_image ⟨'a', 1, 2, 3, "x"⟩ []).images
    ∧ (get_image ⟨'a', 1, 2, 3, "x"⟩ []).images.count (fname 'a' 1 2 3) = 1 :=
  cache_exactly_once ⟨'a', 1, 2, 3, "x"⟩ ⟨'a', 1, 2, 3, "y"⟩ [] rfl rfl rfl rfl (by decide)

/-! Injectivity of the cache-key filename (C10). -/

/-- Numeric value of a decimal digit character. -/
def charVal (c : Char) : Nat := c.toNat - 48

theorem charVal_digitChar (d : Nat) (hd : d < 10) :
    charVal (Nat.digitChar d) = d := by
  interval_cases d <;> rfl

theorem digitChar_ne_dash (d : Nat) (hd : d < 10) : Nat.digitChar d ≠ '-' := by
  interval_cases d <;> decide

/-- Big-endian decimal value of a character list. -/
def valOf (l : List Char) : Nat := l.foldl (fun acc c => 10 * acc + charVal c) 0

theorem foldr_digits_eq_ofDigits (ds : List Nat) (h : ∀ d ∈ ds, d < 10) :
    ds.foldr (fun d acc => 10 * acc + charVal (Nat.digitChar d)) 0 =
      Nat.ofDigits 10 ds := by
  induction ds with
  | nil => rfl
  | cons d rest ih =>
    rw [List.foldr_cons, ih fun x hx => h x (List.mem_cons_of_mem d hx),
      Nat.ofDigits_cons, charVal_digitChar d (h d (List.mem_cons_self d rest))]
    omega

theorem valOf_decRepr (n : Nat) : valOf (decRepr n) = n := by
  by_cases h : n = 0
  · subst h; rfl
  · rw [decRepr, if_neg h, valOf, List.foldl_reverse]
    rw [List.foldr_map]
    rw [foldr_digits_eq_ofDigits (Nat.digits 10 n)
      (fun d hd => Nat.digits_lt_base (by omega) hd)]
    exact_mod_cast Nat.ofDigits_digits 10 n

theorem decRepr_injective (m n : Nat) (h : decRepr m = decRepr n) : m = n := by
  have hv := congrArg valOf h
  rwa [valOf_decRepr, valOf_decRepr] at hv

theorem decRepr_no_dash (n : Nat) : '-' ∉ decRepr n := by
  rw [decRepr]
  by_cases h : n = 0
  · simp [h]
  · rw [if_neg h]
    intro hmem
    rw [List.mem_reverse] at hmem
    obtain ⟨d, hd, hEq⟩ := List.mem_map.mp hmem
    exact digitChar_ne_dash d (Nat.digits_lt_base (by omega) hd) hEq

theorem append_dash_inj (xs : List Char) :
    ∀ (ys u v : List Char), '-' ∉ xs → '-' ∉ ys →
      xs ++ '-' :: u = ys ++ '-' :: v → xs = ys ∧ u = v := by
  induction xs with
  | nil =>
    intro ys u v _ hy h
    cases ys with
    | nil => simpa using h
    | cons b bs =>
      simp only [List.nil_append, List.cons_append, List.cons.injEq] at h
      exact absurd (h.1 ▸ List.mem_cons_self b bs) (h.1 ▸ hy)
  | cons a as ih =>
    intro ys u v hx hy h
    cases ys with
    | nil =>
      simp only [List.cons_append, List.nil_append, List.cons.injEq] at h
      exact absurd (h.1 ▸ List.mem_cons_self a as) (by rw [h.1] at hx; exact hx)
    | cons b bs =>
      simp only [List.cons_append, List.cons.injEq] at h
      have has : '-' ∉ as := fun hmem => hx (List.mem_cons_of_mem a hmem)
      have hbs : '-' ∉ bs := fun hmem => hy (List.mem_cons_of_mem b hmem)
      obtain ⟨hs, hu⟩ := ih bs u v has hbs h.2
      exact ⟨by rw [h.1, hs], hu⟩

/-- C10: the cache-key filename `C + '%d-%d-%d.svg'` is injective in the
key: two requests receive the same filename exactly when character,
emphasis index, skip count and stop index all agree, so distinct keys
never alias the same cached artifact. -/
theorem fname_key_injective (C C' : Character) (a b c a' b' c' : Nat) :
    fname C a b c = fname C' a' b' c' ↔ (C = C' ∧ a = a' ∧ b = b' ∧ c = c') := by
  constructor
  · intro h
    have hd : fname_chars C a b c = fname_chars C' a' b' c' := congrArg String.data h
    rw [fname_chars, fname_chars] at hd
    simp only [List.cons.injEq] at hd
    obtain ⟨hC, hrest⟩ := hd
    obtain ⟨ha, hrest2⟩ := append_dash_inj (decRepr a) (decRepr a') _ _
      (decRepr_no_dash a) (decRepr_no_dash a') hrest
    obtain ⟨hb, hrest3⟩ := append_dash_inj (decRepr b) (decRepr b') _ _
      (decRepr_no_dash b) (decRepr_no_dash b') hrest2
    obtain ⟨hc, -⟩ := List.append_inj' hrest3 rfl
    exact ⟨hC, decRepr_injective a a' ha, decRepr_injective b b' hb,
      decRepr_injective c c' hc⟩
  · rintro ⟨rfl, rfl, rfl, rfl⟩
    rfl

/-- C3 counterexample: at `cellSize = 201` (which exceeds the page
width) `gen_svg` does not fail at all — it succeeds and emits a page
with an empty placement list, contradicting the claim that an
`InvalidSize` failure occurs rather than an empty page. -/
theorem invalid_size_counterexample :
    gen_svg ['X'] (load_strokes_db []) 201 [] (fun _ => 0) =
      .ok ⟨"X ()", [], []⟩ := by
  rfl

theorem mapM_err_head {α β : Type} (f : α → Except PyErr β) (a : α) (l : List α)
    (e : PyErr) (h : f a = .error e) : (a :: l).mapM f = .error e := by
  rw [List.mapM_cons, h]
  rfl

/-- C3 amended: there is no `InvalidSize` validation. `cellSize = 0`
fails with Python's division-by-zero error before any cell is pulled,
while any positive `cellSize` whose grid has zero content slots
(including 201) succeeds and emits a page with no placements. -/
theorem size_validation_behavior (chars : List Character)
    (strokes_db : Character → Option (List Stroke))
    (dict_records : List (Character × List String)) (picks : Nat → Nat) :
    gen_svg chars strokes_db 0 dict_records picks = .error .zeroDivision
    ∧ (∀ size, 0 < size →
        (PAGE_SIZE.1 / size) * (PAGE_SIZE.2 / size - 1) = 0 →
        (∀ c ∈ chars, (load_dictionary dict_records c).isSome) →
        ∃ page, gen_svg chars strokes_db size dict_records picks = .ok page
          ∧ page.cells = []) := by
  constructor
  · rfl
  · intro size hpos hN hP
    have hne0 : ¬ size = 0 := Nat.pos_iff_ne_zero.mp hpos
    have hhead := header_join_ok chars (load_dictionary dict_records)
      (fun c => (load_dictionary dict_records c).getD "")
      (fun c hc => by
        obtain ⟨t, ht⟩ := Option.isSome_iff_exists.mp (hP c hc)
        simp [ht])
    refine ⟨⟨String.intercalate ", "
      (chars.map fun c =>
        String.singleton c ++ " (" ++ (load_dictionary dict_records c).getD "" ++ ")"),
      [], []⟩, ?_, rfl⟩
    rw [gen_svg]
    simp only [hne0, if_false, hhead, hN]
    rfl

/-- Witness for the amended C3: size 0 raises the division error and
size 201 yields a page with zero placements. -/
theorem size_validation_behavior_witness :
    gen_svg ['X'] (load_strokes_db []) 0 [] (fun _ => 0) = .error .zeroDivision
    ∧ ∃ page, gen_svg ['X'] (load_strokes_db []) 201 [] (fun _ => 0) = .ok page
        ∧ page.cells = [] := by
  have h := size_validation_behavior ['X'] (load_strokes_db []) [] (fun _ => 0)
  exact ⟨h.1, h.2 201 (by omega) (by decide) (by decide)⟩

theorem drills_err (strokes_db : Character → Option (List Stroke))
    (P : Character → Option String) (B : Character) (hB : strokes_db B = none)
    (post : List Character) :
    ∀ pre, (∀ C ∈ pre, (strokes_db C).isSome ∧ (P C).isSome) →
      drills strokes_db P (pre ++ B :: post) =
        (pre.bind (char_drills_spec strokes_db P), some (.keyError B)) := by
  intro pre
  induction pre with
  | nil =>
    intro _
    rw [List.nil_append, drills]
    simp [char_block, hB]
  | cons C rest ih =>
    intro hok
    have hC := hok C (List.mem_cons_self C rest)
    rw [List.cons_append, drills, char_block_ok strokes_db P C hC.1 hC.2,
      ih fun x hx => hok x (List.mem_cons_of_mem C hx)]
    simp

/-- C4 amended: an unknown character does not abort the run up front —
the failure surfaces lazily, at the pull that first reaches the unknown
character: every pull before that index yields a drill request of the
preceding (known) characters, and the pull at the index of the unknown
character's block raises KeyError, mid-stream. -/
theorem unknown_character_midstream (pre post : List Character) (B : Character)
    (strokes_db : Character → Option (List Stroke)) (P : Character → Option String)
    (picks : Nat → Nat) (hB : strokes_db B = none)
    (hok : ∀ C ∈ pre, (strokes_db C).isSome ∧ (P C).isSome) :
    (∀ k, k < (pre.bind (char_drills_spec strokes_db P)).length →
      ∃ r, pull_from (pre ++ B :: post) strokes_db P picks 0 k = .ok r)
    ∧ pull_from (pre ++ B :: post) strokes_db P picks 0
        ((pre.bind (char_drills_spec strokes_db P)).length) = .error (.keyError B) := by
  have hpass : pass_block (pre ++ B :: post) strokes_db P picks 0 =
      (pre.bind (char_drills_spec strokes_db P), some (.keyError B)) := by
    rw [pass_block, drills_err strokes_db P B hB post pre hok]
  constructor
  · intro k hk
    rw [pull_from]
    simp only [hpass]
    rw [dif_pos hk]
    exact ⟨_, rfl⟩
  · rw [pull_from]
    simp only [hpass]
    rw [dif_neg (lt_irrefl _)]
    split
    · rename_i e he
      rw [hpass] at he
      simp only [Option.some.injEq] at he
      subst he
      rfl
    · rename_i he
      rw [hpass] at he
      simp at he

/-- Witness for the amended C4: with known `'a'` (one stroke) before
unknown `'b'`, the first six pulls succeed and the seventh raises. -/
theorem unknown_character_midstream_witness :
    (∀ k, k < ((['a'] : List Character).bind
        (char_drills_spec (load_strokes_db [('a', ["s"])])
          (load_dictionary [('a', ["pa"]), ('b', ["pb"])]))).length →
      ∃ r, pull_from (['a'] ++ 'b' :: []) (load_strokes_db [('a', ["s"])])
          (load_dictionary [('a', ["pa"]), ('b', ["pb"])]) (fun _ => 0) 0 k = .ok r)
    ∧ pull_from (['a'] ++ 'b' :: []) (load_strokes_db [('a', ["s"])])
        (load_dictionary [('a', ["pa"]), ('b', ["pb"])]) (fun _ => 0) 0
        ((['a'] : List Character).bind
          (char_drills_spec (load_strokes_db [('a', ["s"])])
            (load_dictionary [('a', ["pa"]), ('b', ["pb"])]))).length =
      .error (.keyError 'b') :=
  unknown_character_midstream ['a'] [] 'b' (load_strokes_db [('a', ["s"])])
    (load_dictionary [('a', ["pa"]), ('b', ["pb"])]) (fun _ => 0) (by decide) (by decide)

/-- C4 counterexample: with targets `['a', 'b']` where `'b'` is absent
from the stroke store, the system does not fail before any cell is
pulled: the very first pull succeeds (a drill cell for `'a'`), and
realizing it leaves an artifact in the run manifest. -/
theorem unknown_character_counterexample :
    ('b' ∈ (['a', 'b'] : List Character))
    ∧ load_strokes_db [('a', ["s"])] 'b' = none
    ∧ pull_from ['a', 'b'] (load_strokes_db [('a', ["s"])])
        (load_dictionary [('a', ["pa"]), ('b', ["pb"])]) (fun _ => 0) 0 0 =
      .ok ⟨'a', 0, 0, 1, "pa"⟩
    ∧ (get_image ⟨'a', 0, 0, 1, "pa"⟩ []).images = ["a0-0-1.svg"] := by
  refine ⟨by decide, by decide, ?_, ?_⟩
  · rw [pull_from]
    rw [dif_pos (by decide :
      0 < (pass_block ['a', 'b'] (load_strokes_db [('a', ["s"])])
        (load_dictionary [('a', ["pa"]), ('b', ["pb"])]) (fun _ => 0) 0).1.length)]
    rfl
  · have h0 : decRepr 0 = ['0'] := rfl
    have hd1 : Nat.digits 10 1 = [1] := by
      rw [Nat.digits_def' (by norm_num : (1:ℕ) < 10) (by norm_num : 0 < 1)]
      norm_num
    have h1 : decRepr 1 = ['1'] := by
      rw [decRepr, if_neg one_ne_zero, hd1]
      rfl
    have hf : fname 'a' 0 0 1 = "a0-0-1.svg" := by
      rw [fname, fname_chars, h0, h1]
      rfl
    simp [get_image, hf]

/-- C6 counterexample: a character with strokes but no dictionary entry
makes the header builder raise KeyError (the whole `gen_svg` call
fails), and the curriculum drill block for it raises KeyError as well —
no empty-string substitution happens. -/
theorem pron_missing_counterexample :
    gen_svg ['y'] (load_strokes_db [('y', ["s"])]) 10 [] (fun _ => 0) =
      .error (.keyError 'y')
    ∧ char_block (load_strokes_db [('y', ["s"])]) (load_dictionary []) 'y' =
        ([], some (.keyError 'y')) := by
  exact ⟨rfl, rfl⟩

/-- C6 amended: looking up the pronunciation of a character absent from
the dictionary raises KeyError in both callers: the header builder
fails on the first such character, and the drill loop fails on such a
character when it has at least one stroke. Only `load_dictionary`'s
placeholder `'X'` entry maps to the empty string. -/
theorem pron_missing_raises (P : Character → Option String) (c : Character)
    (rest : List Character) (strokes_db : Character → Option (List Stroke))
    (s : List Stroke) (hmiss : P c = none) (hdb : strokes_db c = some s)
    (hs : s ≠ []) :
    header_join (c :: rest) P = .error (.keyError c)
    ∧ char_block strokes_db P c = ([], some (.keyError c)) := by
  constructor
  · have hm := mapM_err_head
      (fun x => match P x with
       | none => Except.error (PyErr.keyError x)
       | some p => Except.ok (String.singleton x ++ " (" ++ p ++ ")"))
      c rest (PyErr.keyError c) (by simp [hmiss])
    rw [header_join, hm]
    rfl
  · have hlen : ¬ s.length = 0 := fun h0 => hs (List.length_eq_zero.mp h0)
    unfold char_block
    rw [hdb]
    simp [hlen, hmiss]

/-- Witness for the amended C6: a single character `'z'` with one stroke
and no dictionary entry. -/
theorem pron_missing_raises_witness :
    header_join ('z' :: []) (load_dictionary []) = .error (.keyError 'z')
    ∧ char_block (load_strokes_db [('z', ["s1"])]) (load_dictionary []) 'z' =
        ([], some (.keyError 'z')) :=
  pron_missing_raises (load_dictionary []) 'z' [] (load_strokes_db [('z', ["s1"])])
    ["s1"] (by decide) (by decide) (by decide)

/-- C8: regardless of the parsed input records, `load_strokes_db` maps the
reserved placeholder character `'X'` to the empty stroke list, and
`load_dictionary` maps `'X'` to the empty label. -/
theorem placeholder_always_defined
    (g : List (Character × List Stroke)) (d : List (Character × List String)) :
    load_strokes_db g 'X' = some [] ∧ load_dictionary d 'X' = some "" := by
  constructor <;> simp [load_strokes_db, load_dictionary]

end Strokes
